import Mathlib

/-!
Shallow embedding of `src/main.py` of the `sentinel_bot` repository, and
proofs about its core pipeline: the line normalizer `process_list`, the MIME
walker `extract_text_plain_parts`, and the orchestrator `parse_email`.

Strings are modelled as Lean `String` (a list of characters); Python's
`str.strip()` is modelled by `pyStrip`, Python truthiness of a string by
comparison with `""`.
-/

/-- Python whitespace characters recognised by `str.strip()` (ASCII range). -/
def pyWs (c : Char) : Bool :=
  c == ' ' || c == '\t' || c == '\n' || c == '\r' || c == '\x0b' || c == '\x0c'

/-- Model of Python `str.strip()`: remove leading and trailing whitespace. -/
def pyStrip (s : String) : String :=
  String.mk (((s.data.dropWhile pyWs).reverse.dropWhile pyWs).reverse)

/-- A line is blank when its strip is empty: Python `not x.strip()`. -/
def blank (s : String) : Bool := pyStrip s == ""

/-- Python `next((i for i, x in enumerate(lst) if x.strip()), None)`:
index of the first element whose strip is non-empty. -/
def firstNonEmptyIndex : List String → Option Nat
  | [] => none
  | x :: xs => if blank x then (firstNonEmptyIndex xs).map (· + 1) else some 0

/-- One iteration of the collapse loop of `process_list` (src/main.py lines
109-114): append `item` to `collapsed` unless `item` is blank and the last
two already-appended elements are both blank. -/
def collapseStep (collapsed : List String) (item : String) : List String :=
  if !blank item || (match collapsed.getLast? with
      | some z => !blank z
      | none => false) then
    collapsed ++ [item]
  else if collapsed.length < 2 || (match collapsed.dropLast.getLast? with
      | some z => !blank z
      | none => false) then
    collapsed ++ [item]
  else
    collapsed

/-- Canonicalization loop of `process_list` (src/main.py lines 116-118):
Python `if not item` replaces exactly the empty-string elements by a
newline. -/
def canonBlank (s : String) : String := if s = "" then "\n" else s

/-- Embedding of `process_list` (src/main.py lines 91-120). -/
def process_list (lst : List String) : List String :=
  let lst1 :=
    match firstNonEmptyIndex lst with
    | some i => lst.drop i
    | none => lst
  let lst2 :=
    match firstNonEmptyIndex lst1.reverse with
    | some j => lst1.take (lst1.length - j)
    | none => lst1
  (lst2.foldl collapseStep []).map canonBlank

/-! ## Analysis definitions

Declarative counterparts of the passes of `process_list`, used to state and
prove its properties. -/

/-- Trailing-trim of the normalizer, written declaratively. -/
def trimTrail (l : List String) : List String :=
  (l.reverse.dropWhile blank).reverse

/-- Number of trailing blank elements of a list. -/
def trailBlanks (l : List String) : Nat :=
  (l.reverse.takeWhile blank).length

/-- The collapse pass as a left-to-right recursion; `c` counts the blanks
already emitted for the current run (saturating at 2). -/
def collapseAux : Nat → List String → List String
  | _, [] => []
  | c, x :: xs =>
    if blank x then
      if c < 2 then x :: collapseAux (c + 1) xs else collapseAux c xs
    else
      x :: collapseAux 0 xs

/-- Lists on which the collapse pass is the identity, starting from blank
counter `c`: no blank run extends past two entries. -/
def okRun : Nat → List String → Prop
  | _, [] => True
  | c, x :: xs => if blank x then c < 2 ∧ okRun (c + 1) xs else okRun 0 xs

/-! ## MIME model

A parsed MIME message (Python `email.message.Message`): either a multipart
container with an ordered list of sub-messages, or a leaf with a content
type and a textual payload. Every node carries its headers; only the root's
headers are consulted by the orchestrator. -/

inductive MimePart where
  | leaf (headers : List (String × String)) (contentType : String) (payload : String)
  | multipart (headers : List (String × String)) (parts : List MimePart)

def MimePart.headers : MimePart → List (String × String)
  | .leaf h _ _ => h
  | .multipart h _ => h

/-- ASCII lowercasing of a character, as Python `str.lower` acts on header
names. -/
def lowerChar (c : Char) : Char :=
  if 'A' ≤ c ∧ c ≤ 'Z' then Char.ofNat (c.toNat + 32) else c

/-- ASCII lowercasing of a string. -/
def lowerStr (s : String) : String := String.mk (s.data.map lowerChar)

/-- Model of `email.message.Message.get(name)`: case-insensitive lookup of
the first matching header, `none` (Python `None`) when the header is
absent. -/
def getHeader (m : MimePart) (name : String) : Option String :=
  (m.headers.find? (fun kv => lowerStr kv.1 == lowerStr name)).map (fun kv => kv.2)

mutual
/-- Embedding of `extract_text_plain_parts` (src/main.py lines 28-34): the
eager list of the payloads the Python generator yields, in order. -/
def extract_text_plain_parts : MimePart → List String
  | .leaf _ ct payload => if ct = "text/plain" then [payload] else []
  | .multipart _ parts => extractList parts

/-- The loop over `part.get_payload()` in `extract_text_plain_parts`. -/
def extractList : List MimePart → List String
  | [] => []
  | p :: ps => extract_text_plain_parts p ++ extractList ps
end

mutual
/-- Depth-first left-to-right enumeration of the leaves of a MIME tree as
(content type, payload) pairs; written from the words of the spec to state
the Walker claim. -/
def leafSeq : MimePart → List (String × String)
  | .leaf _ ct payload => [(ct, payload)]
  | .multipart _ parts => leafSeqList parts

/-- Leaf enumeration of a forest of MIME trees, left to right. -/
def leafSeqList : List MimePart → List (String × String)
  | [] => []
  | p :: ps => leafSeq p ++ leafSeqList ps
end

/-- Selection of a plain-text leaf, per the spec: the payload if and only if
the content type equals "text/plain". -/
def plainPick (lf : String × String) : Option String :=
  if lf.1 = "text/plain" then some lf.2 else none

/-! ## splitlines, Email, parse_email -/

/-- Line-break characters of Python `str.splitlines`. -/
def lineBreakChar (c : Char) : Bool :=
  c == '\n' || c == '\r' || c == '\x0b' || c == '\x0c' || c == '\x1c' ||
  c == '\x1d' || c == '\x1e' || c == '\x85' || c == ' ' || c == ' '

/-- Accumulator pass of `splitlines`: `acc` is the current line reversed. -/
def splitlinesAux : List Char → List Char → List (List Char)
  | acc, [] => if acc.isEmpty then [] else [acc.reverse]
  | acc, '\r' :: '\n' :: rest => acc.reverse :: splitlinesAux [] rest
  | acc, c :: rest =>
    if lineBreakChar c then acc.reverse :: splitlinesAux [] rest
    else splitlinesAux (c :: acc) rest

/-- Model of Python `str.splitlines()`: split at line breaks (`\r\n` counts
as one break), no trailing empty line for a trailing break. -/
def splitlines (s : String) : List String :=
  (splitlinesAux [] s.data).map String.mk

/-- A parsed date: the fields `datetime.strptime` extracts from the fixed
format, with the UTC offset in minutes. -/
structure PyDatetime where
  year : Nat
  month : Nat
  day : Nat
  hour : Nat
  minute : Nat
  second : Nat
  tzOffsetMinutes : Int
deriving DecidableEq, Repr

def digitVal (c : Char) : Nat := c.toNat - 48

def take1or2Digits : List Char → Option (Nat × List Char)
  | c1 :: c2 :: rest =>
    if c1.isDigit then
      if c2.isDigit then some (digitVal c1 * 10 + digitVal c2, rest)
      else some (digitVal c1, c2 :: rest)
    else none
  | [c1] => if c1.isDigit then some (digitVal c1, []) else none
  | [] => none

def take2Digits : List Char → Option (Nat × List Char)
  | c1 :: c2 :: rest =>
    if c1.isDigit && c2.isDigit then
      some (digitVal c1 * 10 + digitVal c2, rest)
    else none
  | _ => none

def take4Digits : List Char → Option (Nat × List Char)
  | c1 :: c2 :: c3 :: c4 :: rest =>
    if c1.isDigit && c2.isDigit && c3.isDigit && c4.isDigit then
      some (((digitVal c1 * 10 + digitVal c2) * 10 + digitVal c3) * 10
        + digitVal c4, rest)
    else none
  | _ => none

/-- Case-insensitive literal keyword match, returning the rest of the
input. -/
def matchKeyword : List Char → List Char → Option (List Char)
  | [], s => some s
  | k :: ks, c :: cs => if c.toLower == k.toLower then matchKeyword ks cs else none
  | _ :: _, [] => none

/-- First alternative of a keyword table that matches a prefix of the
input. -/
def matchFirst (kws : List (List Char × Nat)) (s : List Char) : Option (Nat × List Char) :=
  match kws with
  | [] => none
  | (k, v) :: rest =>
    match matchKeyword k s with
    | some r => some (v, r)
    | none => matchFirst rest s

def weekdayAbbrs : List (List Char × Nat) :=
  [("mon".data, 0), ("tue".data, 1), ("wed".data, 2), ("thu".data, 3),
   ("fri".data, 4), ("sat".data, 5), ("sun".data, 6)]

def monthAbbrs : List (List Char × Nat) :=
  [("jan".data, 1), ("feb".data, 2), ("mar".data, 3), ("apr".data, 4),
   ("may".data, 5), ("jun".data, 6), ("jul".data, 7), ("aug".data, 8),
   ("sep".data, 9), ("oct".data, 10), ("nov".data, 11), ("dec".data, 12)]

/-- One or more whitespace characters (a space in the format pattern). -/
def skipSpaces1 : List Char → Option (List Char)
  | c :: rest => if pyWs c then some (rest.dropWhile pyWs) else none
  | [] => none

def matchLit (c : Char) : List Char → Option (List Char)
  | d :: rest => if d == c then some rest else none
  | [] => none

/-- UTC offset `±HHMM`, `±HH:MM` or `Z`; minutes at most 59 and total
magnitude under 24 hours, in minutes, negative for `-`. -/
def parseTzOffset : List Char → Option (Int × List Char)
  | 'Z' :: rest => some (0, rest)
  | c :: rest =>
    if c == '+' || c == '-' then
      match take2Digits rest with
      | none => none
      | some (hh, r1) =>
        let r2 := match r1 with
          | ':' :: rr => rr
          | _ => r1
        match take2Digits r2 with
        | none => none
        | some (mm, r3) =>
          if mm ≤ 59 && hh * 60 + mm < 24 * 60 then
            some (if c == '-' then -(Int.ofNat (hh * 60 + mm))
              else Int.ofNat (hh * 60 + mm), r3)
          else none
    else none
  | [] => none

/-- Days in a month, with Gregorian leap years, as checked by the
`datetime` constructor. -/
def daysInMonth (year month : Nat) : Nat :=
  if month = 2 then
    if (year % 4 = 0 ∧ year % 100 ≠ 0) ∨ year % 400 = 0 then 29 else 28
  else if month = 4 ∨ month = 6 ∨ month = 9 ∨ month = 11 then 30 else 31

/-- First stage of the fixed date format: abbreviated weekday name, the
literal comma, then whitespace. -/
def parseWeekdayComma (s : List Char) : Option (List Char) :=
  match matchFirst weekdayAbbrs s with
  | none => none
  | some (_, r1) =>
    match matchLit ',' r1 with
    | none => none
    | some r2 => skipSpaces1 r2

/-- Day of month: 1-2 digits in 1..31. -/
def parseDayField (s : List Char) : Option (Nat × List Char) :=
  match take1or2Digits s with
  | none => none
  | some (day, r) => if 1 ≤ day ∧ day ≤ 31 then some (day, r) else none

/-- Whitespace then abbreviated month name. -/
def parseMonthField (s : List Char) : Option (Nat × List Char) :=
  match skipSpaces1 s with
  | none => none
  | some r => matchFirst monthAbbrs r

/-- Whitespace then a 4-digit year of at least 1 (Python MINYEAR). -/
def parseYearField (s : List Char) : Option (Nat × List Char) :=
  match skipSpaces1 s with
  | none => none
  | some r =>
    match take4Digits r with
    | none => none
    | some (y, r2) => if 1 ≤ y then some (y, r2) else none

/-- Whitespace then `HH:MM:SS`, each field 1-2 digits in range. -/
def parseClockField (s : List Char) : Option (Nat × Nat × Nat × List Char) :=
  match skipSpaces1 s with
  | none => none
  | some r =>
    match take1or2Digits r with
    | none => none
    | some (hh, r1) =>
      if hh ≤ 23 then
        match matchLit ':' r1 with
        | none => none
        | some r2 =>
          match take1or2Digits r2 with
          | none => none
          | some (mm, r3) =>
            if mm ≤ 59 then
              match matchLit ':' r3 with
              | none => none
              | some r4 =>
                match take1or2Digits r4 with
                | none => none
                | some (ss, r5) => if ss ≤ 61 then some (hh, mm, ss, r5) else none
            else none
      else none

/-- Whitespace then the UTC offset; the whole input must be consumed. -/
def parseTzField (s : List Char) : Option Int :=
  match skipSpaces1 s with
  | none => none
  | some r =>
    match parseTzOffset r with
    | none => none
    | some (tz, rest) => if rest = [] then some tz else none

/-- Modelled from the spec: Python `datetime.strptime` (standard library,
external to the repository) specialized to the fixed pattern
`"%a, %d %b %Y %H:%M:%S %z"` of src/main.py line 127. Per the spec, any
deviation from this exact format is a parse failure. Weekday and month
names match case-insensitively; day, hour, minute and second are 1-2
digits within range; the year is exactly 4 digits; an impossible calendar
date fails; the offset is `±HHMM`, `±HH:MM` or `Z`; each format space
matches a run of whitespace; the whole string must be consumed. -/
def strptime (s : String) : Option PyDatetime :=
  match parseWeekdayComma s.data with
  | none => none
  | some r =>
    match parseDayField r with
    | none => none
    | some (day, r1) =>
      match parseMonthField r1 with
      | none => none
      | some (month, r2) =>
        match parseYearField r2 with
        | none => none
        | some (year, r3) =>
          if day ≤ daysInMonth year month then
            match parseClockField r3 with
            | none => none
            | some (hour, minute, second, r4) =>
              match parseTzField r4 with
              | none => none
              | some tz => some ⟨year, month, day, hour, minute, second, tz⟩
          else none

/-- The `Email` dataclass (src/main.py lines 19-25). The dataclass annotates
`subject` as `str` with default `""`, but Python does not enforce the
annotation at runtime; the orchestrator passes the raw result of
`Message.get`, which is `None` when the header is absent, so the field is
modelled as `Option String` with `none` for Python `None`. -/
structure Email where
  date : Option PyDatetime
  subject : Option String
  body : String
  attachments : List String
  attachment_links : List String
deriving DecidableEq

/-- Embedding of `parse_email` (src/main.py lines 123-143).
`datetime.strptime` raises (`TypeError` on a missing `Date` header passed
as `None`, `ValueError` on a non-matching string) and `parse_email` has no
handler, so the failure propagates; it is modelled with `Except.error`. -/
def parse_email (mime_message : MimePart) : Except String Email :=
  let subject := getHeader mime_message "Subject"
  match getHeader mime_message "Date" with
  | none => Except.error "TypeError: strptime argument must be a string"
  | some d =>
    match strptime d with
    | none => Except.error "ValueError: time data does not match format"
    | some dt =>
      let parts := extract_text_plain_parts mime_message
      let partTexts := parts.map (fun part =>
        String.join (process_list ((splitlines part).map pyStrip)))
      Except.ok {
        date := some dt
        subject := subject
        body := String.intercalate "\n" partTexts
        attachments := []
        attachment_links := [] }

/-! ## Concrete instances and claim-level predicates -/

/-- Absence of an interior blank: every blank element has only blanks on
its left or only blanks on its right (it belongs to a boundary run). -/
def NoInteriorBlank (l : List String) : Prop :=
  ∀ u b v, l = u ++ b :: v → blank b = true →
    (∀ z ∈ u, blank z = true) ∨ (∀ z ∈ v, blank z = true)

/-- A message with a valid date and no Subject header. -/
def msgNoSubject : MimePart :=
  .leaf [("Date", "Mon, 01 Jan 2024 10:00:00 +0000")] "text/plain" "Hello"

/-- A message whose Date header does not match the fixed format. -/
def msgBadDate : MimePart :=
  .leaf [("Subject", "Hi"), ("Date", "01/01/2024")] "text/plain" "Hello"

/-- A message with two plain-text parts, "A\nB" and "C". -/
def msgTwoParts : MimePart :=
  .multipart [("Subject", "Hi"), ("Date", "Mon, 01 Jan 2024 10:00:00 +0000")]
    [.leaf [] "text/plain" "A\nB", .leaf [] "text/plain" "C"]

/-- The Email `parse_email` produces for `msgTwoParts`. -/
def emailTwoParts : Email :=
  { date := some ⟨2024, 1, 1, 10, 0, 0, 0⟩, subject := some "Hi",
    body := "AB\nC", attachments := [], attachment_links := [] }

/-- The Email `parse_email` produces for `msgNoSubject`. -/
def emailNoSubject : Email :=
  { date := some ⟨2024, 1, 1, 10, 0, 0, 0⟩, subject := none,
    body := "Hello", attachments := [], attachment_links := [] }

/-- A container with plain-text, html and plain-text leaves, in that order. -/
def sampleTree : MimePart :=
  .multipart [] [.leaf [] "text/plain" "A", .leaf [] "text/html" "B",
    .leaf [] "text/plain" "C"]

/-- A container with no plain-text leaf. -/
def htmlOnlyTree : MimePart :=
  .multipart [] [.leaf [] "text/html" "B", .leaf [] "image/png" "I"]

/-! ## Basic lemmas about the passes -/

theorem trailBlanks_concat_nonblank (l : List String) (x : String)
    (hx : blank x = false) : trailBlanks (l ++ [x]) = 0 := by
  unfold trailBlanks
  rw [List.reverse_append]
  simp [List.takeWhile_cons, hx]

theorem trailBlanks_concat_blank (l : List String) (x : String)
    (hx : blank x = true) : trailBlanks (l ++ [x]) = trailBlanks l + 1 := by
  unfold trailBlanks
  rw [List.reverse_append]
  simp [List.takeWhile_cons, hx]

theorem collapseAux_cons_nonblank (c : Nat) (x : String) (xs : List String)
    (hx : blank x = false) : collapseAux c (x :: xs) = x :: collapseAux 0 xs := by
  simp [collapseAux, hx]

theorem collapseAux_cons_blank_lt (c : Nat) (x : String) (xs : List String)
    (hx : blank x = true) (hc : c < 2) :
    collapseAux c (x :: xs) = x :: collapseAux (c + 1) xs := by
  simp [collapseAux, hx, hc]

theorem collapseAux_cons_blank_sat (x : String) (xs : List String)
    (hx : blank x = true) : collapseAux 2 (x :: xs) = collapseAux 2 xs := by
  simp [collapseAux, hx]

theorem collapseStep_eq (acc : List String) (x : String) :
    collapseStep acc x =
      if blank x = true ∧ 2 ≤ trailBlanks acc then acc else acc ++ [x] := by
  rcases hx : blank x with _ | _
  · simp [collapseStep, hx]
  · induction acc using List.reverseRecOn with
    | nil => simp [collapseStep, hx, trailBlanks]
    | append_singleton a z _ =>
      rcases hz : blank z with _ | _
      · have h0 := trailBlanks_concat_nonblank a z hz
        simp [collapseStep, hx, hz, List.getLast?_concat, h0]
      · have h1 := trailBlanks_concat_blank a z hz
        induction a using List.reverseRecOn with
        | nil =>
          have ht : trailBlanks ([] : List String) = 0 := by simp [trailBlanks]
          rw [h1, ht] at *
          simp [collapseStep, hx, hz]
        | append_singleton b w _ =>
          rcases hw : blank w with _ | _
          · have h2 := trailBlanks_concat_nonblank b w hw
            rw [h1, h2]
            simp [collapseStep, hx, hz, hw, List.getLast?_concat,
              List.dropLast_concat]
          · have h2 := trailBlanks_concat_blank b w hw
            rw [h1, h2]
            have hL : ¬ ((b ++ [w]).length + 1 < 2) := by simp
            have hge : 2 ≤ trailBlanks b + 1 + 1 := by omega
            simp [collapseStep, hx, hz, hw, List.getLast?_concat,
              List.dropLast_concat, hL, hge]

theorem foldl_collapseStep (l : List String) :
    ∀ acc : List String,
      l.foldl collapseStep acc = acc ++ collapseAux (min (trailBlanks acc) 2) l := by
  induction l with
  | nil => intro acc; simp [collapseAux]
  | cons x xs ih =>
    intro acc
    rw [List.foldl_cons, ih (collapseStep acc x), collapseStep_eq]
    rcases hx : blank x with _ | _
    · rw [if_neg (by simp [hx])]
      rw [trailBlanks_concat_nonblank acc x hx,
        collapseAux_cons_nonblank _ x xs hx, List.append_assoc]
      rfl
    · by_cases h2 : 2 ≤ trailBlanks acc
      · rw [if_pos ⟨rfl, h2⟩]
        have hmin : min (trailBlanks acc) 2 = 2 := by omega
        rw [hmin, collapseAux_cons_blank_sat x xs hx]
      · rw [if_neg (fun hc => h2 hc.2)]
        rw [trailBlanks_concat_blank acc x hx]
        have hlt : trailBlanks acc < 2 := by omega
        have hm1 : min (trailBlanks acc + 1) 2 = trailBlanks acc + 1 := by omega
        have hm2 : min (trailBlanks acc) 2 = trailBlanks acc := by omega
        rw [hm1, hm2, collapseAux_cons_blank_lt _ x xs hx hlt, List.append_assoc]
        rfl

theorem foldl_collapseStep_nil (l : List String) :
    l.foldl collapseStep [] = collapseAux 0 l := by
  have h := foldl_collapseStep l []
  simpa [trailBlanks] using h

theorem firstNonEmptyIndex_eq_none (l : List String) :
    firstNonEmptyIndex l = none ↔ ∀ x ∈ l, blank x = true := by
  induction l with
  | nil => simp [firstNonEmptyIndex]
  | cons x xs ih =>
    rcases hx : blank x with _ | _
    · simp [firstNonEmptyIndex, hx]
    · simp [firstNonEmptyIndex, hx, ih]

theorem drop_firstNonEmptyIndex (l : List String) (i : Nat)
    (h : firstNonEmptyIndex l = some i) : l.drop i = l.dropWhile blank := by
  induction l generalizing i with
  | nil => simp [firstNonEmptyIndex] at h
  | cons x xs ih =>
    rcases hx : blank x with _ | _
    · simp only [firstNonEmptyIndex, hx] at h
      simp only [Bool.false_eq_true, if_false, Option.some.injEq] at h
      subst h
      simp [List.dropWhile_cons, hx]
    · simp only [firstNonEmptyIndex, hx, if_true, Option.map_eq_some'] at h
      obtain ⟨j, hj, rfl⟩ := h
      rw [List.drop_succ_cons, ih j hj, List.dropWhile_cons_of_pos hx]

theorem firstNonEmptyIndex_lt_length (l : List String) (i : Nat)
    (h : firstNonEmptyIndex l = some i) : i < l.length := by
  induction l generalizing i with
  | nil => simp [firstNonEmptyIndex] at h
  | cons x xs ih =>
    rcases hx : blank x with _ | _
    · simp only [firstNonEmptyIndex, hx] at h
      simp only [Bool.false_eq_true, if_false, Option.some.injEq] at h
      subst h
      simp
    · simp only [firstNonEmptyIndex, hx, if_true, Option.map_eq_some'] at h
      obtain ⟨j, hj, rfl⟩ := h
      have := ih j hj
      simp
      omega

theorem collapseAux_all_blank (l : List String) :
    ∀ c : Nat, (∀ x ∈ l, blank x = true) → collapseAux c l = l.take (2 - c) := by
  induction l with
  | nil => intro c _; simp [collapseAux]
  | cons x xs ih =>
    intro c h
    have hx : blank x = true := h x (List.mem_cons_self x xs)
    have hxs : ∀ y ∈ xs, blank y = true := fun y hy => h y (List.mem_cons_of_mem x hy)
    by_cases hc : c < 2
    · rw [collapseAux_cons_blank_lt c x xs hx hc, ih (c + 1) hxs]
      have : 2 - c = (2 - (c + 1)) + 1 := by omega
      rw [this]
      rfl
    · have hc2 : c = 2 ∨ 2 < c := by omega
      have h2c : 2 - c = 0 := by omega
      rcases hc2 with rfl | hgt
      · rw [collapseAux_cons_blank_sat x xs hx, ih 2 hxs]
        simp
      · have : collapseAux c (x :: xs) = collapseAux c xs := by
          simp [collapseAux, hx]
          intro h'
          omega
        rw [this, ih c hxs, h2c]
        simp

theorem dropWhile_append_nonblank (a r : List String) (x : String)
    (hx : blank x = false) :
    (a ++ x :: r).dropWhile blank = a.dropWhile blank ++ x :: r := by
  rw [List.dropWhile_append]
  by_cases h : (a.dropWhile blank).isEmpty
  · rw [if_pos h]
    rw [List.isEmpty_iff] at h
    rw [h, List.dropWhile_cons_of_neg (by simp [hx]), List.nil_append]
  · rw [if_neg h]

theorem dropWhile_all_blank (l : List String) (h : ∀ x ∈ l, blank x = true) :
    l.dropWhile blank = [] :=
  List.dropWhile_eq_nil_iff.mpr h

theorem trimTrail_append_nonblank (a q : List String) (y : String)
    (hy : blank y = false) :
    trimTrail (a ++ y :: q) = a ++ y :: trimTrail q := by
  unfold trimTrail
  rw [List.reverse_append, List.reverse_cons, List.append_assoc,
    List.singleton_append, dropWhile_append_nonblank _ _ y hy,
    List.reverse_append, List.reverse_cons, List.reverse_reverse]
  simp

theorem trimTrail_append_blank_run (a bs : List String)
    (h : ∀ b ∈ bs, blank b = true) : trimTrail (a ++ bs) = trimTrail a := by
  unfold trimTrail
  rw [List.reverse_append, List.dropWhile_append_of_pos]
  intro b hb
  exact h b (List.mem_reverse.mp hb)

theorem take_reverse_firstNonEmptyIndex (l : List String) (j : Nat)
    (h : firstNonEmptyIndex l.reverse = some j) :
    l.take (l.length - j) = trimTrail l := by
  have hd : l.reverse.drop j = l.reverse.dropWhile blank :=
    drop_firstNonEmptyIndex l.reverse j h
  have hrev : (l.take (l.length - j)).reverse = l.reverse.dropWhile blank := by
    rw [← hd, List.drop_reverse]
  have := congrArg List.reverse hrev
  rwa [List.reverse_reverse] at this

theorem exists_nonblank_dropWhile (l : List String)
    (h : ∃ x ∈ l, blank x = false) :
    ∃ y ys, l.dropWhile blank = y :: ys ∧ blank y = false := by
  induction l with
  | nil => simp at h
  | cons x xs ih =>
    rcases hx : blank x with _ | _
    · exact ⟨x, xs, by rw [List.dropWhile_cons_of_neg (by simp [hx])], hx⟩
    · rw [List.dropWhile_cons_of_pos hx]
      apply ih
      obtain ⟨z, hz, hzb⟩ := h
      rcases List.mem_cons.mp hz with rfl | hzxs
      · rw [hx] at hzb; cases hzb
      · exact ⟨z, hzxs, hzb⟩

/-- Behavior of `process_list` on inputs in which every element is blank:
the index searches find nothing, so the slicing passes leave the list
untouched and the collapse pass keeps its first two elements. -/
theorem process_list_all_blank (l : List String)
    (h : ∀ x ∈ l, blank x = true) :
    process_list l = (l.take 2).map canonBlank := by
  have h1 : firstNonEmptyIndex l = none := (firstNonEmptyIndex_eq_none l).mpr h
  have h2 : firstNonEmptyIndex l.reverse = none :=
    (firstNonEmptyIndex_eq_none l.reverse).mpr
      (fun x hx => h x (List.mem_reverse.mp hx))
  unfold process_list
  simp only [h1]
  simp only [h2]
  rw [foldl_collapseStep_nil, collapseAux_all_blank l 0 h]

/-- Behavior of `process_list` on inputs containing at least one non-blank
element: leading and trailing blanks are sliced away, then the interior
collapse and the newline canonicalization run. -/
theorem process_list_has_nonblank (l : List String)
    (h : ∃ x ∈ l, blank x = false) :
    process_list l =
      (collapseAux 0 (trimTrail (l.dropWhile blank))).map canonBlank := by
  have h1 : firstNonEmptyIndex l ≠ none := by
    intro heq
    obtain ⟨x, hx, hxb⟩ := h
    rw [(firstNonEmptyIndex_eq_none l).mp heq x hx] at hxb
    cases hxb
  obtain ⟨i, hi⟩ := Option.ne_none_iff_exists'.mp h1
  obtain ⟨y, ys, hyys, hyb⟩ := exists_nonblank_dropWhile l h
  have h2 : firstNonEmptyIndex (l.dropWhile blank).reverse ≠ none := by
    intro heq
    have hy : y ∈ (l.dropWhile blank).reverse := by
      rw [List.mem_reverse, hyys]
      exact List.mem_cons_self y ys
    rw [(firstNonEmptyIndex_eq_none _).mp heq y hy] at hyb
    cases hyb
  obtain ⟨j, hj⟩ := Option.ne_none_iff_exists'.mp h2
  unfold process_list
  simp only [hi, drop_firstNonEmptyIndex l i hi]
  simp only [hj]
  rw [take_reverse_firstNonEmptyIndex _ j hj, foldl_collapseStep_nil]

theorem collapseAux_cons_blank_ge (c : Nat) (x : String) (xs : List String)
    (hx : blank x = true) (hc : ¬ c < 2) :
    collapseAux c (x :: xs) = collapseAux c xs := by
  simp [collapseAux, hx, hc]

theorem collapseAux_append_nonblank (x : String) (rest : List String)
    (hx : blank x = false) :
    ∀ (dp : List String) (c : Nat),
      collapseAux c (dp ++ x :: rest) = collapseAux c dp ++ x :: collapseAux 0 rest := by
  intro dp
  induction dp with
  | nil =>
    intro c
    rw [List.nil_append, collapseAux_cons_nonblank c x rest hx]
    rfl
  | cons z dp' ih =>
    intro c
    rcases hz : blank z with _ | _
    · rw [List.cons_append, collapseAux_cons_nonblank _ z _ hz,
        collapseAux_cons_nonblank _ z _ hz, ih 0, List.cons_append]
    · by_cases hc : c < 2
      · rw [List.cons_append, collapseAux_cons_blank_lt _ z _ hz hc,
          collapseAux_cons_blank_lt _ z _ hz hc, ih (c + 1), List.cons_append]
      · rw [List.cons_append, collapseAux_cons_blank_ge _ z _ hz hc,
          collapseAux_cons_blank_ge _ z _ hz hc, ih c]

theorem collapseAux_blank_run (bs : List String) (h : ∀ b ∈ bs, blank b = true) :
    ∀ (rest : List String) (c : Nat), c ≤ 2 →
      collapseAux c (bs ++ rest) =
        bs.take (2 - c) ++ collapseAux (min (c + bs.length) 2) rest := by
  induction bs with
  | nil =>
    intro rest c hc
    have hmin : min (c + ([] : List String).length) 2 = c := by
      simp only [List.length_nil]
      omega
    rw [List.nil_append, hmin]
    simp
  | cons b bs' ih =>
    intro rest c hc
    have hb : blank b = true := h b (List.mem_cons_self b bs')
    have hbs' : ∀ z ∈ bs', blank z = true := fun z hz => h z (List.mem_cons_of_mem b hz)
    by_cases hlt : c < 2
    · rw [List.cons_append, collapseAux_cons_blank_lt _ b _ hb hlt,
        ih hbs' rest (c + 1) (by omega)]
      have h1 : 2 - c = (2 - (c + 1)) + 1 := by omega
      have h2 : min (c + 1 + bs'.length) 2 = min (c + (b :: bs').length) 2 := by
        simp only [List.length_cons]
        omega
      rw [h1, h2]
      rfl
    · have hc2 : c = 2 := by omega
      subst hc2
      rw [List.cons_append, collapseAux_cons_blank_ge _ b _ hb hlt,
        ih hbs' rest 2 (by omega)]
      have h1 : min (2 + bs'.length) 2 = min (2 + (b :: bs').length) 2 := by
        simp only [List.length_cons]
        omega
      rw [h1]
      rfl

theorem blank_empty_string : blank "" = true := by decide

theorem blank_newline : blank "\n" = true := by decide

theorem nonblank_ne_empty (s : String) (h : blank s = false) : s ≠ "" := by
  intro heq
  rw [heq, blank_empty_string] at h
  cases h

theorem canonBlank_ne_empty (s : String) : canonBlank s ≠ "" := by
  unfold canonBlank
  by_cases h : s = ""
  · rw [if_pos h]; decide
  · rw [if_neg h]; exact h

theorem canonBlank_of_nonblank (s : String) (h : blank s = false) :
    canonBlank s = s := by
  unfold canonBlank
  rw [if_neg (nonblank_ne_empty s h)]

theorem blank_canonBlank (s : String) : blank (canonBlank s) = blank s := by
  unfold canonBlank
  by_cases h : s = ""
  · rw [if_pos h, h]
    decide
  · rw [if_neg h]

theorem map_canonBlank_id (l : List String) (h : ∀ x ∈ l, x ≠ "") :
    l.map canonBlank = l := by
  induction l with
  | nil => rfl
  | cons x xs ih =>
    rw [List.map_cons, ih (fun z hz => h z (List.mem_cons_of_mem x hz))]
    have hx : canonBlank x = x := by
      unfold canonBlank
      rw [if_neg (h x (List.mem_cons_self x xs))]
    rw [hx]

theorem collapseAux_of_okRun : ∀ (c : Nat) (l : List String), okRun c l → collapseAux c l = l := by
  intro c l
  induction l generalizing c with
  | nil => intro _; rfl
  | cons x xs ih =>
    intro h
    rcases hx : blank x with _ | _
    · rw [collapseAux_cons_nonblank c x xs hx]
      rw [okRun, hx] at h
      simp only [Bool.false_eq_true, if_false] at h
      rw [ih 0 h]
    · rw [okRun, hx, if_pos rfl] at h
      obtain ⟨hc, hrest⟩ := h
      rw [collapseAux_cons_blank_lt c x xs hx hc, ih (c + 1) hrest]

theorem okRun_collapseAux : ∀ (c : Nat) (l : List String), okRun c (collapseAux c l) := by
  intro c l
  induction l generalizing c with
  | nil => exact trivial
  | cons x xs ih =>
    rcases hx : blank x with _ | _
    · rw [collapseAux_cons_nonblank c x xs hx, okRun, hx]
      simp only [Bool.false_eq_true, if_false]
      exact ih 0
    · by_cases hc : c < 2
      · rw [collapseAux_cons_blank_lt c x xs hx hc, okRun, hx, if_pos rfl]
        exact ⟨hc, ih (c + 1)⟩
      · rw [collapseAux_cons_blank_ge c x xs hx hc]
        exact ih c

theorem okRun_cons_nonblank (x : String) (xs : List String) (c : Nat)
    (hx : blank x = false) : okRun c (x :: xs) ↔ okRun 0 xs := by
  simp [okRun, hx]

theorem okRun_cons_blank (x : String) (xs : List String) (c : Nat)
    (hx : blank x = true) : okRun c (x :: xs) ↔ (c < 2 ∧ okRun (c + 1) xs) := by
  simp [okRun, hx]

theorem okRun_map_canonBlank : ∀ (c : Nat) (l : List String),
    okRun c l → okRun c (l.map canonBlank) := by
  intro c l
  induction l generalizing c with
  | nil => intro _; exact trivial
  | cons x xs ih =>
    intro h
    rw [List.map_cons]
    by_cases hx : blank x = true
    · rw [okRun_cons_blank x xs c hx] at h
      rw [okRun_cons_blank (canonBlank x) (xs.map canonBlank) c
        (by rw [blank_canonBlank]; exact hx)]
      exact ⟨h.1, ih (c + 1) h.2⟩
    · have hx' : blank x = false := by
        revert hx
        cases blank x <;> simp
      rw [okRun_cons_nonblank x xs c hx'] at h
      rw [okRun_cons_nonblank (canonBlank x) (xs.map canonBlank) c
        (by rw [blank_canonBlank]; exact hx')]
      exact ih 0 h

theorem trimTrail_nil : trimTrail [] = [] := by
  simp [trimTrail]

theorem trimTrail_cons_nonblank (x : String) (r : List String)
    (hx : blank x = false) : trimTrail (x :: r) = x :: trimTrail r := by
  have h := trimTrail_append_nonblank [] r x hx
  simpa using h

theorem dropWhile_head_false (p : String → Bool) (l : List String) (y : String)
    (s : List String) (h : l.dropWhile p = y :: s) : p y = false := by
  induction l with
  | nil => simp at h
  | cons z zs ih =>
    rcases hz : p z with _ | _
    · rw [List.dropWhile_cons_of_neg (by simp [hz])] at h
      obtain ⟨rfl, -⟩ := List.cons.inj h
      exact hz
    · rw [List.dropWhile_cons_of_pos hz] at h
      exact ih h

theorem trimTrail_last_nonblank (l : List String) (hne : trimTrail l ≠ []) :
    ∃ m y, trimTrail l = m ++ [y] ∧ blank y = false := by
  cases hdd : l.reverse.dropWhile blank with
  | nil =>
    exfalso
    apply hne
    unfold trimTrail
    rw [hdd]
    rfl
  | cons y s =>
    have hy : blank y = false := dropWhile_head_false blank l.reverse y s hdd
    refine ⟨s.reverse, y, ?_, hy⟩
    unfold trimTrail
    rw [hdd]
    simp

/-- Any list of the shape produced by the normalizer on input with a
non-blank element is a fixed point of `process_list`. -/
theorem process_list_fixed_point (x : String) (u : List String)
    (hx : blank x = false)
    (hu : u = [] ∨ ∃ m y, u = m ++ [y] ∧ blank y = false) :
    process_list (x :: (collapseAux 0 u).map canonBlank)
      = x :: (collapseAux 0 u).map canonBlank := by
  have hex : ∃ z ∈ x :: (collapseAux 0 u).map canonBlank, blank z = false :=
    ⟨x, List.mem_cons_self _ _, hx⟩
  rw [process_list_has_nonblank _ hex]
  rw [List.dropWhile_cons_of_neg (by simp [hx])]
  rcases hu with rfl | ⟨m, y, rfl, hy⟩
  · simp only [collapseAux, List.map_nil]
    rw [trimTrail_cons_nonblank x [] hx, trimTrail_nil,
      collapseAux_cons_nonblank 0 x [] hx]
    simp only [collapseAux, List.map_cons, List.map_nil]
    rw [canonBlank_of_nonblank x hx]
  · have hsplit : collapseAux 0 (m ++ [y]) = collapseAux 0 m ++ [y] := by
      have h := collapseAux_append_nonblank y [] hy m 0
      simpa [collapseAux] using h
    rw [hsplit, List.map_append]
    simp only [List.map_cons, List.map_nil]
    rw [canonBlank_of_nonblank y hy, ← List.cons_append]
    have htt : trimTrail ((x :: (collapseAux 0 m).map canonBlank) ++ [y])
        = (x :: (collapseAux 0 m).map canonBlank) ++ [y] := by
      have h := trimTrail_append_nonblank
        (x :: (collapseAux 0 m).map canonBlank) [] y hy
      simpa [trimTrail_nil] using h
    rw [htt]
    have hok0 : okRun 0 ((collapseAux 0 m ++ [y]).map canonBlank) := by
      apply okRun_map_canonBlank
      rw [← hsplit]
      exact okRun_collapseAux 0 (m ++ [y])
    rw [List.map_append] at hok0
    simp only [List.map_cons, List.map_nil] at hok0
    rw [canonBlank_of_nonblank y hy] at hok0
    have hok : okRun 0 ((x :: (collapseAux 0 m).map canonBlank) ++ [y]) := by
      rw [List.cons_append, okRun_cons_nonblank _ _ 0 hx]
      exact hok0
    rw [collapseAux_of_okRun 0 _ hok]
    apply map_canonBlank_id
    intro z hz
    simp only [List.cons_append, List.mem_cons, List.mem_append,
      List.mem_singleton] at hz
    rcases hz with rfl | hz | (rfl | hz)
    · exact nonblank_ne_empty z hx
    · obtain ⟨a, -, rfl⟩ := List.mem_map.mp hz
      exact canonBlank_ne_empty a
    · exact nonblank_ne_empty z hy
    · cases hz

/-! ## Walker lemmas -/

mutual
theorem extract_eq_leafSeq (t : MimePart) :
    extract_text_plain_parts t = (leafSeq t).filterMap plainPick := by
  cases t with
  | leaf h ct payload =>
    rw [extract_text_plain_parts, leafSeq]
    by_cases hct : ct = "text/plain"
    · simp [List.filterMap, plainPick, hct]
    · simp [List.filterMap, plainPick, hct]
  | multipart h parts =>
    rw [extract_text_plain_parts, leafSeq]
    exact extractList_eq_leafSeqList parts

theorem extractList_eq_leafSeqList (ps : List MimePart) :
    extractList ps = (leafSeqList ps).filterMap plainPick := by
  cases ps with
  | nil => rw [extractList, leafSeqList]; rfl
  | cons p rest =>
    rw [extractList, leafSeqList, List.filterMap_append,
      extract_eq_leafSeq p, extractList_eq_leafSeqList rest]
end


theorem blank_eq_true_iff (s : String) : blank s = true ↔ pyStrip s = "" := by
  unfold blank
  exact beq_iff_eq

theorem collapseAux_no_blank (l : List String)
    (h : ∀ z ∈ l, blank z = false) : ∀ c : Nat, collapseAux c l = l := by
  induction l with
  | nil => intro c; rfl
  | cons x xs ih =>
    intro c
    rw [collapseAux_cons_nonblank c x xs (h x (List.mem_cons_self x xs)),
      ih (fun z hz => h z (List.mem_cons_of_mem x hz)) 0]

theorem filter_nonblank_all_blank (l : List String)
    (h : ∀ z ∈ l, blank z = true) : l.filter (fun s => !blank s) = [] := by
  induction l with
  | nil => rfl
  | cons x xs ih =>
    rw [List.filter_cons_of_neg (by simp [h x (List.mem_cons_self x xs)])]
    exact ih (fun z hz => h z (List.mem_cons_of_mem x hz))

theorem filter_nonblank_map_canonBlank (l : List String) :
    (l.map canonBlank).filter (fun s => !blank s)
      = l.filter (fun s => !blank s) := by
  induction l with
  | nil => rfl
  | cons x xs ih =>
    rw [List.map_cons]
    rcases hx : blank x with _ | _
    · rw [List.filter_cons_of_pos (by simp [blank_canonBlank, hx]),
        List.filter_cons_of_pos (by simp [hx]), canonBlank_of_nonblank x hx, ih]
    · rw [List.filter_cons_of_neg (by simp [blank_canonBlank, hx]),
        List.filter_cons_of_neg (by simp [hx]), ih]

theorem filter_nonblank_collapseAux (l : List String) :
    ∀ c : Nat, (collapseAux c l).filter (fun s => !blank s)
      = l.filter (fun s => !blank s) := by
  induction l with
  | nil => intro c; rfl
  | cons x xs ih =>
    intro c
    rcases hx : blank x with _ | _
    · rw [collapseAux_cons_nonblank c x xs hx,
        List.filter_cons_of_pos (by simp [hx]),
        List.filter_cons_of_pos (by simp [hx]), ih 0]
    · by_cases hc : c < 2
      · rw [collapseAux_cons_blank_lt c x xs hx hc,
          List.filter_cons_of_neg (by simp [hx]),
          List.filter_cons_of_neg (by simp [hx]), ih (c + 1)]
      · rw [collapseAux_cons_blank_ge c x xs hx hc,
          List.filter_cons_of_neg (by simp [hx]), ih c]

theorem filter_nonblank_dropWhile (l : List String) :
    (l.dropWhile blank).filter (fun s => !blank s)
      = l.filter (fun s => !blank s) := by
  induction l with
  | nil => rfl
  | cons x xs ih =>
    rcases hx : blank x with _ | _
    · rw [List.dropWhile_cons_of_neg (by simp [hx])]
    · rw [List.dropWhile_cons_of_pos hx,
        List.filter_cons_of_neg (by simp [hx]), ih]

theorem filter_nonblank_trimTrail (l : List String) :
    (trimTrail l).filter (fun s => !blank s)
      = l.filter (fun s => !blank s) := by
  unfold trimTrail
  rw [List.filter_reverse, filter_nonblank_dropWhile, List.filter_reverse,
    List.reverse_reverse]

/-! ## Claims -/

/-- Claim C1, counterexample: the singleton list with one blank element is
an all-blank input, yet `process_list` returns a non-empty list (a single
newline marker), not the empty sequence. -/
theorem c1_counterexample :
    (∀ x ∈ ([""] : List String), blank x = true) ∧ process_list [""] ≠ [] := by
  constructor
  · decide
  · decide

/-- Claim C1, amended: on an input in which every element is blank
(including the empty list), `process_list` performs no boundary trimming
(both index searches find nothing); the collapse pass keeps the first
min(k, 2) elements and the canonicalization replaces each kept
empty-string element by a newline. It returns the empty sequence only for
the empty input. -/
theorem c1_all_blank_amended (l : List String)
    (h : ∀ x ∈ l, blank x = true) :
    process_list l = (l.take 2).map canonBlank :=
  process_list_all_blank l h

/-- Claim C1, witness of the amended statement at an all-blank two-element
input. -/
theorem c1_witness : process_list ["", ""] = ["\n", "\n"] :=
  (c1_all_blank_amended ["", ""] (by decide)).trans (by decide)

/-- Claim C3: blank runs before the first non-blank element and after the
last non-blank element are removed entirely, whatever their lengths: the
output equals the output on the trimmed core. -/
theorem c3_boundary_blanks_removed (bs1 bs2 core : List String)
    (h1 : ∀ b ∈ bs1, blank b = true) (h2 : ∀ b ∈ bs2, blank b = true)
    (hhead : ∃ x rest, core = x :: rest ∧ blank x = false)
    (hlast : ∃ rest y, core = rest ++ [y] ∧ blank y = false) :
    process_list (bs1 ++ core ++ bs2) = process_list core := by
  obtain ⟨x, r, rfl, hx⟩ := hhead
  obtain ⟨m, y, hm, hy⟩ := hlast
  have hexL : ∃ z ∈ bs1 ++ (x :: r) ++ bs2, blank z = false :=
    ⟨x, by simp, hx⟩
  have hex2 : ∃ z ∈ x :: r, blank z = false := ⟨x, by simp, hx⟩
  rw [process_list_has_nonblank _ hexL, process_list_has_nonblank _ hex2]
  rw [show bs1 ++ (x :: r) ++ bs2 = bs1 ++ x :: (r ++ bs2) from by simp]
  rw [dropWhile_append_nonblank bs1 (r ++ bs2) x hx,
    dropWhile_all_blank bs1 h1, List.nil_append,
    List.dropWhile_cons_of_neg (by simp [hx])]
  have hL : x :: (r ++ bs2) = (x :: r) ++ bs2 := by simp
  rw [hL, trimTrail_append_blank_run (x :: r) bs2 h2]

/-- Claim C3, witness at two leading blanks and one trailing blank around
the single non-blank line "a". -/
theorem c3_witness : process_list ["", "", "a", ""] = process_list ["a"] := by
  have h := c3_boundary_blanks_removed ["", ""] [""] ["a"]
    (by decide) (by decide) ⟨"a", [], rfl, by decide⟩ ⟨[], "a", rfl, by decide⟩
  simpa using h

/-- Claim C8: `process_list` is idempotent. -/
theorem c8_idempotent (l : List String) :
    process_list (process_list l) = process_list l := by
  by_cases hall : ∀ x ∈ l, blank x = true
  · rw [process_list_all_blank l hall]
    have hob : ∀ z ∈ (l.take 2).map canonBlank, blank z = true := by
      intro z hz
      obtain ⟨a, ha, rfl⟩ := List.mem_map.mp hz
      rw [blank_canonBlank]
      exact hall a (List.mem_of_mem_take ha)
    rw [process_list_all_blank _ hob]
    have hlen : ((l.take 2).map canonBlank).length ≤ 2 := by
      rw [List.length_map, List.length_take]
      exact min_le_left _ _
    rw [List.take_of_length_le hlen]
    apply map_canonBlank_id
    intro z hz
    obtain ⟨a, -, rfl⟩ := List.mem_map.mp hz
    exact canonBlank_ne_empty a
  · have hex : ∃ x ∈ l, blank x = false := by
      push_neg at hall
      obtain ⟨x, hx, hbx⟩ := hall
      refine ⟨x, hx, ?_⟩
      revert hbx
      cases blank x <;> simp
    rw [process_list_has_nonblank l hex]
    obtain ⟨x, r0, hxr, hx⟩ := exists_nonblank_dropWhile l hex
    rw [hxr, trimTrail_cons_nonblank x r0 hx,
      collapseAux_cons_nonblank 0 x _ hx, List.map_cons,
      canonBlank_of_nonblank x hx]
    apply process_list_fixed_point x (trimTrail r0) hx
    by_cases hnil : trimTrail r0 = []
    · exact Or.inl hnil
    · exact Or.inr (trimTrail_last_nonblank r0 hnil)

/-- Claim C9, counterexample: the list with a blank first element and a
non-blank second element has no interior blank (the blank belongs to the
leading boundary run), is non-empty, and is changed by `process_list`
(the boundary blank is removed). -/
theorem c9_counterexample :
    NoInteriorBlank ["", "a"] ∧ (["", "a"] : List String) ≠ [] ∧
    process_list ["", "a"] ≠ ["", "a"] := by
  refine ⟨?_, by decide, by decide⟩
  intro u b v h hb
  rcases u with _ | ⟨u1, u'⟩
  · left
    intro z hz
    cases hz
  · rcases u' with _ | ⟨u2, u''⟩
    · simp only [List.cons_append, List.nil_append, List.cons.injEq] at h
      obtain ⟨-, hb2, -⟩ := h
      rw [← hb2] at hb
      exact absurd hb (by decide)
    · simp only [List.cons_append, List.cons.injEq] at h
      obtain ⟨-, -, h3⟩ := h
      exact absurd h3.symm (by simp)

/-- Claim C9, amended: a non-empty list with no blank element at all is
returned unchanged by `process_list`. (With blanks allowed at the
boundary, the claim fails: boundary trimming removes them.) -/
theorem c9_no_blank_unchanged (l : List String) (hne : l ≠ [])
    (h : ∀ z ∈ l, blank z = false) : process_list l = l := by
  obtain ⟨x, r, rfl⟩ : ∃ x r, l = x :: r := by
    cases l with
    | nil => exact absurd rfl hne
    | cons a as => exact ⟨a, as, rfl⟩
  have hx : blank x = false := h x (List.mem_cons_self x r)
  have hex : ∃ z ∈ x :: r, blank z = false := ⟨x, by simp, hx⟩
  rw [process_list_has_nonblank _ hex,
    List.dropWhile_cons_of_neg (by simp [hx])]
  rcases List.eq_nil_or_concat (x :: r) with hnil | ⟨m, y, hmy⟩
  · cases hnil
  · rw [List.concat_eq_append] at hmy
    have hy : blank y = false := h y (by rw [hmy]; simp)
    rw [hmy]
    have htt : trimTrail (m ++ [y]) = m ++ [y] := by
      have hh := trimTrail_append_nonblank m [] y hy
      simpa [trimTrail_nil] using hh
    rw [htt, collapseAux_no_blank (m ++ [y]) (fun z hz => h z (by rw [hmy]; exact hz)) 0]
    exact map_canonBlank_id _ (fun z hz => nonblank_ne_empty z (h z (by rw [hmy]; exact hz)))

/-- Claim C9, witness of the amended statement at a two-element blank-free
input. -/
theorem c9_witness : process_list ["a", "b"] = ["a", "b"] :=
  c9_no_blank_unchanged ["a", "b"] (by decide) (by decide)

/-- Claim C10: normalization never drops, duplicates, reorders or rewrites
a non-blank line: the subsequence of non-blank elements of the output
equals that of the input. -/
theorem c10_nonblank_subsequence_preserved (l : List String) :
    (process_list l).filter (fun s => !blank s)
      = l.filter (fun s => !blank s) := by
  by_cases hall : ∀ x ∈ l, blank x = true
  · rw [process_list_all_blank l hall]
    rw [filter_nonblank_all_blank _ (fun z hz => by
      obtain ⟨a, ha, rfl⟩ := List.mem_map.mp hz
      rw [blank_canonBlank]
      exact hall a (List.mem_of_mem_take ha))]
    rw [filter_nonblank_all_blank l hall]
  · have hex : ∃ x ∈ l, blank x = false := by
      push_neg at hall
      obtain ⟨x, hx, hbx⟩ := hall
      refine ⟨x, hx, ?_⟩
      revert hbx
      cases blank x <;> simp
    rw [process_list_has_nonblank l hex, filter_nonblank_map_canonBlank,
      filter_nonblank_collapseAux _ 0, filter_nonblank_trimTrail,
      filter_nonblank_dropWhile]

/-- Claim C2: a maximal run of k ≥ 2 blank lines strictly between two
non-blank lines x and y contributes exactly two newline markers to the
output, whatever k is: the output is the normalized prefix, then x, then
exactly two markers, then y, then the normalized suffix. The run's lines
are required to be pre-trimmed, as the normalizer's contract states; a
pre-trimmed blank line is the empty string. -/
theorem c2_interior_run_collapsed (p q bs : List String) (x y : String)
    (hx : blank x = false) (hy : blank y = false)
    (hbs : ∀ b ∈ bs, blank b = true)
    (htrim : ∀ b ∈ bs, pyStrip b = b)
    (hk : 2 ≤ bs.length) :
    process_list (p ++ x :: (bs ++ y :: q)) =
      (collapseAux 0 (p.dropWhile blank)).map canonBlank
        ++ x :: "\n" :: "\n" :: y :: (collapseAux 0 (trimTrail q)).map canonBlank := by
  have hbs_empty : ∀ b ∈ bs, b = "" := fun b hb => by
    have h1 := (blank_eq_true_iff b).mp (hbs b hb)
    rw [htrim b hb] at h1
    exact h1
  have hex : ∃ z ∈ p ++ x :: (bs ++ y :: q), blank z = false := ⟨x, by simp, hx⟩
  rw [process_list_has_nonblank _ hex]
  rw [dropWhile_append_nonblank p (bs ++ y :: q) x hx]
  rw [show p.dropWhile blank ++ x :: (bs ++ y :: q)
      = (p.dropWhile blank ++ x :: bs) ++ y :: q from by simp]
  rw [trimTrail_append_nonblank _ q y hy]
  rw [show (p.dropWhile blank ++ x :: bs) ++ y :: trimTrail q
      = p.dropWhile blank ++ x :: (bs ++ y :: trimTrail q) from by simp]
  rw [collapseAux_append_nonblank x (bs ++ y :: trimTrail q) hx (p.dropWhile blank) 0]
  rw [collapseAux_blank_run bs hbs (y :: trimTrail q) 0 (by omega)]
  have hmin : min (0 + bs.length) 2 = 2 := by omega
  rw [hmin, collapseAux_cons_nonblank 2 y _ hy]
  rcases bs with _ | ⟨b0, bs1⟩
  · simp at hk
  rcases bs1 with _ | ⟨b1, bs'⟩
  · simp at hk
  have hb0 : b0 = "" := hbs_empty b0 (by simp)
  have hb1 : b1 = "" := hbs_empty b1 (by simp)
  subst hb0
  subst hb1
  have htake : (("" : String) :: "" :: bs').take (2 - 0) = ["", ""] := rfl
  rw [htake]
  simp [List.map_append, canonBlank_of_nonblank x hx,
    canonBlank_of_nonblank y hy, canonBlank, nonblank_ne_empty x hx,
    nonblank_ne_empty y hy]

/-- Claim C2, witness: a run of two blanks between "a" and "b" yields
exactly two newline markers. -/
theorem c2_witness : process_list ["a", "", "", "b"] = ["a", "\n", "\n", "b"] := by
  have h := c2_interior_run_collapsed [] [] ["", ""] "a" "b"
    (by decide) (by decide) (by decide) (by decide) (by decide)
  simpa [trimTrail_nil, collapseAux] using h

/-- Claim C4, code-bug evidence: on a message with no Subject header and a
valid Date, `parse_email` succeeds but the subject field holds Python
`None` (the raw result of `Message.get`), not the empty string promised by
the dataclass annotation `subject: str = ""`. -/
theorem c4_missing_subject_is_none :
    parse_email msgNoSubject = Except.ok emailNoSubject ∧
    emailNoSubject.subject = none ∧ emailNoSubject.subject ≠ some "" :=
  ⟨rfl, rfl, by decide⟩

/-- Claim C5: the walker yields exactly the payloads of the "text/plain"
leaves, in depth-first left-to-right order, and yields the empty sequence
when the tree has no plain-text leaf. -/
theorem c5_walker_text_plain (t : MimePart) :
    extract_text_plain_parts t = (leafSeq t).filterMap plainPick ∧
    ((∀ lf ∈ leafSeq t, lf.1 ≠ "text/plain") →
      extract_text_plain_parts t = []) := by
  refine ⟨extract_eq_leafSeq t, fun h => ?_⟩
  rw [extract_eq_leafSeq t]
  refine List.filterMap_eq_nil_iff.mpr (fun a ha => ?_)
  unfold plainPick
  rw [if_neg (h a ha)]

/-- Claim C5, witness: on leaves [A(text/plain), B(text/html),
C(text/plain)] under one container the walker yields exactly [A, C]; on a
tree with no plain-text leaf it yields []. -/
theorem c5_witness :
    extract_text_plain_parts sampleTree = ["A", "C"] ∧
    extract_text_plain_parts htmlOnlyTree = [] := by
  constructor
  · exact (c5_walker_text_plain sampleTree).1.trans (by decide)
  · exact (c5_walker_text_plain htmlOnlyTree).2 (by decide)

/-- Claim C6: when the Date header is absent, or present but not matching
the fixed format, `parse_email` propagates an error instead of returning
an Email with a null date. -/
theorem c6_malformed_date_errors (m : MimePart)
    (h : getHeader m "Date" = none ∨
      ∃ d, getHeader m "Date" = some d ∧ strptime d = none) :
    ∃ err, parse_email m = Except.error err := by
  rcases h with h | ⟨d, hd, hs⟩
  · refine ⟨"TypeError: strptime argument must be a string", ?_⟩
    simp only [parse_email, h]
  · refine ⟨"ValueError: time data does not match format", ?_⟩
    simp only [parse_email, hd, hs]

/-- Claim C6, witness: the Date "01/01/2024" from the spec scenario makes
`parse_email` fail. -/
theorem c6_witness : ∃ err, parse_email msgBadDate = Except.error err :=
  c6_malformed_date_errors msgBadDate
    (Or.inr ⟨"01/01/2024", by decide, by decide⟩)

/-- Claim C7: a successfully parsed Email's body is each plain-text part's
normalized lines joined with no separator, the parts joined with a single
newline; zero plain-text parts give the empty body. -/
theorem c7_body_joined (m : MimePart) (e : Email)
    (h : parse_email m = Except.ok e) :
    e.body = String.intercalate "\n" ((extract_text_plain_parts m).map
      (fun part => String.join (process_list ((splitlines part).map pyStrip)))) ∧
    (extract_text_plain_parts m = [] → e.body = "") := by
  have hbody : e.body = String.intercalate "\n"
      ((extract_text_plain_parts m).map
        (fun part => String.join (process_list ((splitlines part).map pyStrip)))) := by
    simp only [parse_email] at h
    rcases hdate : getHeader m "Date" with _ | d
    · simp only [hdate] at h
      exact Except.noConfusion h
    · simp only [hdate] at h
      rcases hstrp : strptime d with _ | dt
      · simp only [hstrp] at h
        exact Except.noConfusion h
      · simp only [hstrp, Except.ok.injEq] at h
        rw [← h]
  refine ⟨hbody, fun hnil => ?_⟩
  rw [hbody, hnil]
  rfl

/-- Claim C7, witness: the two plain-text parts "A\nB" and "C" of
`msgTwoParts` produce the body "AB\nC". -/
theorem c7_witness :
    emailTwoParts.body = String.intercalate "\n"
      ((extract_text_plain_parts msgTwoParts).map
        (fun part => String.join (process_list ((splitlines part).map pyStrip)))) ∧
    emailTwoParts.body = "AB\nC" := by
  constructor
  · exact (c7_body_joined msgTwoParts emailTwoParts (by rfl)).1
  · rfl
